import Mathlib

/-!
Verification of the pintos_impl core: the user-pointer/string-copy layer of
`src/userprog/syscall.c` and the frame table of `src/vm/frame.c`, shallowly
embedded over natural-number addresses.  Machine bytes and words are `Nat`;
page size and the user/kernel split are parameters of the machine record.
-/

/-- Page size of the reference build (`PGSIZE` from `threads/vaddr.h`,
an external header).  Theorems are stated for an arbitrary positive page
size, which covers this constant. -/
def PGSIZE : Nat := 4096

/-- The user-visible machine: page size, the user/kernel split address
(`PHYS_BASE`), the per-page mapping predicate, the page translation used by
the mapping oracle, and the byte memory as the CPU sees it. -/
structure UMach where
  pgsz : Nat
  physBase : Nat
  mapped : Nat → Bool
  transl : Nat → Nat
  mem : Nat → Nat

/-- Modelled from the spec: `user_vtop` (declared in this repository but its
definition is outside `src/`).  Per spec §4.1 it returns the kernel-usable
address when the user address is strictly below the user/kernel split and its
page is mapped, and signals failure (NULL) otherwise.  The translation
preserves the in-page offset. -/
def user_vtop (M : UMach) (a : Nat) : Option Nat :=
  if a < M.physBase ∧ M.mapped (a / M.pgsz) then
    some (M.transl (a / M.pgsz) * M.pgsz + a % M.pgsz)
  else
    none

/-- Scan loop of `str_over_boundary`: starting at in-page offset `ofs` with
`fuel` bytes left before the page end, look for a NUL byte.  Returns the C
function's boolean together with the list of addresses dereferenced. -/
def sobAux (mem : Nat → Nat) (page : Nat) : Nat → Nat → Bool × List Nat
  | _, 0 => (true, [])
  | ofs, fuel + 1 =>
    if mem (page + ofs) = 0 then (false, [page + ofs])
    else
      let r := sobAux mem page (ofs + 1) fuel
      (r.1, (page + ofs) :: r.2)

/-- `str_over_boundary` from `syscall.c`: scans from the argument's in-page
offset to the end of the argument's page; `true` means no terminator was
found before the page end.  Second component is the read footprint. -/
def str_over_boundary (mem : Nat → Nat) (pgsz : Nat) (s : Nat) : Bool × List Nat :=
  sobAux mem (pgsz * (s / pgsz)) (s % pgsz) (pgsz - s % pgsz)

/-- Pointwise function update used to model a store into the kernel buffer. -/
def upd (d : Nat → Nat) (i v : Nat) : Nat → Nat :=
  fun j => if j = i then v else d j

/-- `memcpy (dst + doff, s, n)` on the kernel buffer modelled as a function. -/
def memcpyK (dst : Nat → Nat) (doff : Nat) (mem : Nat → Nat) (s n : Nat) : Nat → Nat :=
  fun j => if doff ≤ j ∧ j < doff + n then mem (s + (j - doff)) else dst j

/-- Read footprint of a `memcpy` of `n` bytes from address `s`. -/
def cpyReads (s n : Nat) : List Nat :=
  (List.range n).map (s + ·)

/-- Write trace (buffer index, value) of a `memcpy` of `n` bytes. -/
def cpyWrites (mem : Nat → Nat) (s doff n : Nat) : List (Nat × Nat) :=
  (List.range n).map (fun i => (doff + i, mem (s + i)))

/-- `strlen` with fuel: distance to the first NUL byte at or after `s`,
`none` when no NUL occurs within `fuel` bytes. -/
def strlenB (mem : Nat → Nat) (s : Nat) : Nat → Option Nat
  | 0 => none
  | fuel + 1 =>
    if mem s = 0 then some 0
    else (strlenB mem (s + 1) fuel).map (· + 1)

/-- `strlcpy (dst + doff, s, size)` as in the Pintos C library: computes the
source length first (reading up to and including the NUL), then copies
`min srcLen (size - 1)` bytes and NUL-terminates when `size > 0`.  Returns
the updated buffer, read footprint and write trace; `none` when no NUL is
reachable within `fuel` bytes. -/
def strlcpyK (dst : Nat → Nat) (doff : Nat) (mem : Nat → Nat) (s size fuel : Nat) :
    Option ((Nat → Nat) × List Nat × List (Nat × Nat)) :=
  match strlenB mem s fuel with
  | none => none
  | some d =>
    let rds := (List.range (d + 1)).map (s + ·)
    if 0 < size then
      let dl := min d (size - 1)
      some (upd (memcpyK dst doff mem s dl) (doff + dl) 0,
            rds ++ cpyReads s dl,
            cpyWrites mem s doff dl ++ [(doff + dl, 0)])
    else
      some (dst, rds, [])

/-- Tail of `strlbond` common to both branches: `ASSERT (!str_over_boundary (s))`
followed by `strlcpy (dst + doff, s, size')`.  `none` models the assertion
failing (kernel panic). -/
def sb_cont (mem : Nat → Nat) (pg : Nat) (d : Nat → Nat) (doff s size' : Nat) :
    Option ((Nat → Nat) × List Nat × List (Nat × Nat)) :=
  let a := str_over_boundary mem pg s
  if a.1 then none
  else
    match strlcpyK d doff mem s size' (pg - s % pg) with
    | none => none
    | some (d', r, w) => some (d', a.2 ++ r, w)

/-- Observable result of `strlbond`: the final kernel buffer, the user
addresses passed to the user-pointer translator, the virtual addresses
dereferenced, and the (index, value) write trace on the kernel buffer. -/
structure SBRes where
  dst : Nat → Nat
  vtopCalls : List Nat
  reads : List Nat
  writes : List (Nat × Nat)

/-- `strlbond` from `syscall.c`, faithfully: translate `src` once (a NULL
result is used as address 0, exactly as the unchecked C pointer would be);
if no terminator lies in the current page, copy
`min (PGSIZE - pg_ofs src) (size - 1)` bytes, force a NUL at that index, and
continue from `pg_round_down (src + PGSIZE)` — the raw user address, not a
re-translation; then assert the terminator is now in-page and `strlcpy` the
rest.  `none` models the `ASSERT` failing. -/
def strlbond (M : UMach) (dst0 : Nat → Nat) (src size : Nat) : Option SBRes :=
  let pg := M.pgsz
  let s0 := (user_vtop M src).getD 0
  let soff := src % pg
  let o1 := str_over_boundary M.mem pg s0
  if o1.1 then
    let n := min (pg - soff) (size - 1)
    let d2 := upd (memcpyK dst0 0 M.mem s0 n) n 0
    let s2 := pg * ((src + pg) / pg)
    match sb_cont M.mem pg d2 n s2 (size - n) with
    | none => none
    | some (d', r, w) =>
      some ⟨d', [src], o1.2 ++ cpyReads s0 n ++ r,
            cpyWrites M.mem s0 0 n ++ [(n, 0)] ++ w⟩
  else
    match sb_cont M.mem pg dst0 0 s0 size with
    | none => none
    | some (d', r, w) => some ⟨d', [src], o1.2 ++ r, w⟩

/-- Whether `strlbond` completed without tripping its assertion. -/
def sbOk (o : Option SBRes) : Bool :=
  o.isSome

/-- Final kernel-buffer byte at index `i` (0 when the copy panicked). -/
def sbDst (o : Option SBRes) (i : Nat) : Nat :=
  o.elim 0 (fun r => r.dst i)

/-- Translator-call trace of a `strlbond` run. -/
def sbVtops (o : Option SBRes) : List Nat :=
  o.elim [] SBRes.vtopCalls

/-- Read footprint of a `strlbond` run. -/
def sbReads (o : Option SBRes) : List Nat :=
  o.elim [] SBRes.reads

/-- Write trace of a `strlbond` run. -/
def sbWrites (o : Option SBRes) : List (Nat × Nat) :=
  o.elim [] SBRes.writes

/-! ## System-call dispatcher (`syscall_handler` and the call implementations) -/

/-- Kernel-side machine and external collaborators consumed by the syscall
layer: the user machine, a word-fetch view of memory (for the stack words the
dispatcher reads), and oracles for the process registry and the filesystem
collaborator (spec §6 interfaces, outside `src/`). -/
structure KMach where
  um : UMach
  memW : Nat → Nat
  procExecute : Int
  childExists : Bool
  procWait : Nat → Int
  fsCreate : Bool
  fsRemove : Bool
  fsOpen : Option Nat
  callocOk : Bool

/-- Mutable kernel state touched by the syscall implementations: the kernel
scratch-page pool (as a count), a cumulative count of scratch-page
acquisitions, and the per-process descriptor state (`lastfd`, `open_list`). -/
structure KSt where
  pool : Nat
  acquires : Nat
  lastfd : Int
  openList : List (Int × Nat)
deriving DecidableEq, Repr

/-- `palloc_get_page (0)`: take one kernel scratch page from the pool,
`none` when the pool is exhausted. -/
def pallocK (st : KSt) : Option KSt :=
  if st.pool = 0 then none
  else some { st with pool := st.pool - 1, acquires := st.acquires + 1 }

/-- `exec` from `syscall.c`: guard on the user/kernel split, copy the command
line into a scratch page, start the process, free the page, assert the child
thread exists, block on its load semaphore, return the pid.  `none` models a
panic (failed assertion) or a fault. -/
def exec (M : KMach) (st : KSt) (cmd : Nat) : Option Int × KSt :=
  if M.um.physBase ≤ cmd then (some (-1), st)
  else
    match pallocK st with
    | none => (none, st)
    | some st1 =>
      match strlbond M.um (fun _ => 0) cmd M.um.pgsz with
      | none => (none, st1)
      | some _ =>
        let st2 := { st1 with pool := st1.pool + 1 }
        if M.childExists then (some M.procExecute, st2) else (none, st2)

/-- `create` from `syscall.c` (booleans returned as 0/1 register values). -/
def create (M : KMach) (st : KSt) (file : Nat) : Option Int × KSt :=
  if M.um.physBase ≤ file then (some 0, st)
  else
    match pallocK st with
    | none => (none, st)
    | some st1 =>
      match strlbond M.um (fun _ => 0) file M.um.pgsz with
      | none => (none, st1)
      | some _ =>
        (some (if M.fsCreate then 1 else 0), { st1 with pool := st1.pool + 1 })

/-- `remove` from `syscall.c`. -/
def remove (M : KMach) (st : KSt) (file : Nat) : Option Int × KSt :=
  if M.um.physBase ≤ file then (some 0, st)
  else
    match pallocK st with
    | none => (none, st)
    | some st1 =>
      match strlbond M.um (fun _ => 0) file M.um.pgsz with
      | none => (none, st1)
      | some _ =>
        (some (if M.fsRemove then 1 else 0), { st1 with pool := st1.pool + 1 })

/-- `open` from `syscall.c` (renamed: `open` is reserved in Lean): copy the
name, delegate to the filesystem, free the scratch page, then on success mint
a fresh descriptor; if the bookkeeping `calloc` fails, roll `lastfd` back and
fail. -/
def openF (M : KMach) (st : KSt) (file : Nat) : Option Int × KSt :=
  if M.um.physBase ≤ file then (some (-1), st)
  else
    match pallocK st with
    | none => (none, st)
    | some st1 =>
      match strlbond M.um (fun _ => 0) file M.um.pgsz with
      | none => (none, st1)
      | some _ =>
        let st2 := { st1 with pool := st1.pool + 1 }
        match M.fsOpen with
        | none => (some (-1), st2)
        | some hnd =>
          let fd := st2.lastfd + 1
          if M.callocOk then
            (some fd, { st2 with lastfd := fd, openList := st2.openList ++ [(fd, hnd)] })
          else (some (-1), st2)

/-- Loop body of `write`: each iteration re-copies from `_buffer` (the source
never advances the pointer) with bound `min (size + 1) PGSIZE`, then consumes
`min size (PGSIZE - 1)` bytes.  Returns the total written, `none` on a panic
inside the copier.  A page size below 2 would loop forever in C; the model
returns `none` there. -/
def writeLoopF (M : KMach) (buffer : Nat) : Nat → Nat → Option Nat
  | _, 0 => some 0
  | 0, _ + 1 => none
  | fuel + 1, size + 1 =>
    if M.um.pgsz < 2 then none
    else
      match strlbond M.um (fun _ => 0) buffer (min (size + 1 + 1) M.um.pgsz) with
      | none => none
      | some _ =>
        let step := min (size + 1) (M.um.pgsz - 1)
        match writeLoopF M buffer fuel (size + 1 - step) with
        | none => none
        | some w => some (w + step)

/-- The `while (size > 0)` loop of `write`, driven by fuel `size`: each
iteration consumes `min size (PGSIZE - 1) ≥ 1` bytes, so `size` rounds of
fuel always suffice. -/
def writeLoop (M : KMach) (buffer : Nat) (size : Nat) : Option Nat :=
  writeLoopF M buffer size size

/-- `write` from `syscall.c`: pointer guard (in-band `-1`), acquire one
scratch page, run the chunk loop, free the page, return the total written. -/
def write (M : KMach) (st : KSt) (buffer : Nat) (size : Nat) : Option Int × KSt :=
  if M.um.physBase ≤ buffer then (some (-1), st)
  else
    match pallocK st with
    | none => (none, st)
    | some st1 =>
      match writeLoop M buffer size with
      | none => (none, st1)
      | some w => (some (w : Int), { st1 with pool := st1.pool + 1 })

/-- One entry of an FTE's `reference_list`: a (process, user virtual address)
pair; the process is a non-owning identifier. -/
structure FTERef where
  process : Nat
  vaddr : Nat
deriving DecidableEq, Repr

/-- Frame table entry: the physical page handle, the reference count (a C
`int`, so it can go negative on a stray decrement), and the reference list. -/
structure FTE where
  paddr : Nat
  refcnt : Int
  refs : List FTERef
deriving DecidableEq, Repr

/-- Frame-table state: the user-page free pool and the circular FTE sequence.
Modelled from the spec: the circular list (`clist`, whose implementation is
outside `src/`) is represented as the rotation starting at the scan hand —
the head is the hand, `clist_push_back` appends at the tail (just before the
hand), and removing the hand makes the next live entry the new hand. -/
structure FrameSt where
  pool : List Nat
  ft : List FTE
deriving DecidableEq, Repr

/-- Result of `frame_alloc`: kernel panic (the unimplemented eviction path),
a NULL return with the post-failure state, or a page with the new state. -/
inductive AllocRes where
  | panicked
  | failed (st : FrameSt)
  | ok (fr : Nat) (st : FrameSt)
deriving DecidableEq, Repr

/-- `frame_alloc` from `frame.c`.  `fteOk`/`refOk` are the outcomes of the
two `malloc` calls (external allocator).  An exhausted pool reaches the
unimplemented eviction path, which is `PANIC`.  On `fteOk = false` the page
is released and the table is untouched; on `refOk = false` the page is
released but the FTE — already pushed onto the circular list, with `paddr`
set, `refcnt = 0` and an empty reference list — stays behind, exactly as in
the source's `this_is_disaster` path. -/
def frame_alloc (fteOk refOk : Bool) (cur vaddr : Nat) (st : FrameSt) : AllocRes :=
  match st.pool with
  | [] => .panicked
  | fr :: rest =>
    if fteOk then
      if refOk then
        .ok fr ⟨rest, st.ft ++ [⟨fr, 1, [⟨cur, vaddr⟩]⟩]⟩
      else
        .failed ⟨fr :: rest, st.ft ++ [⟨fr, 0, []⟩]⟩
    else
      .failed ⟨fr :: rest, st.ft⟩

/-- Remove the first reference belonging to process `cur` (the `list_remove`
plus `break` loop of `frame_free`). -/
def removeFirstRef (cur : Nat) : List FTERef → List FTERef
  | [] => []
  | r :: rs => if r.process = cur then rs else r :: removeFirstRef cur rs

/-- Scan of `frame_free`, starting at the hand: on the first FTE whose
`paddr` matches, decrement the count, remove the caller's reference, and if
the count reached zero drop the FTE (the hand moves to the next live entry).
Returns the new sequence and whether the physical page was released. -/
def ffAux (cur fr : Nat) : List FTE → List FTE × Bool
  | [] => ([], false)
  | p :: ps =>
    if p.paddr = fr then
      let p' : FTE := ⟨p.paddr, p.refcnt - 1, removeFirstRef cur p.refs⟩
      if p'.refcnt = 0 then (ps, true) else (p' :: ps, false)
    else
      let r := ffAux cur fr ps
      (p :: r.1, r.2)

/-- `frame_free` from `frame.c`: linear scan from the hand; a miss is a
no-op; on a hit the caller's reference is dropped and, if the count reaches
zero, the page returns to the pool and the FTE leaves the sequence. -/
def frame_free (cur fr : Nat) (st : FrameSt) : FrameSt :=
  let r := ffAux cur fr st.ft
  ⟨if r.2 then fr :: st.pool else st.pool, r.1⟩

/-- The spec §3 frame-table invariant: every live FTE has
`reference_count = |reference_list|` and a nonzero count. -/
def FTinv (ft : List FTE) : Prop :=
  ∀ p ∈ ft, p.refcnt = (p.refs.length : Int) ∧ p.refcnt ≠ 0

instance (ft : List FTE) : Decidable (FTinv ft) := by
  unfold FTinv
  infer_instance

/-- Concrete machine for C2: page size 4, source string at user address 2
running past the page end (bytes 9,9 at addresses 2,3), next-page NUL at
address 4; identity translation below split 100. -/
def M2c : UMach :=
  ⟨4, 100, fun _ => true, fun q => q, fun a => if a = 4 then 0 else 9⟩

/-- Concrete machine for C4: page size 8, console write of the two bytes at
user addresses 16–17 ("hi"-style, NUL at 18); stack words select `SYS_WRITE`
with fd 1, buffer 16, length 2. -/
def M4c : KMach :=
  ⟨⟨8, 64, fun _ => true, fun q => q,
    fun a => if a = 16 then 104 else if a = 17 then 105 else if a = 18 then 0 else 1⟩,
   fun a => if a = 0 then 9 else if a = 4 then 1 else
     if a = 8 then 16 else if a = 12 then 2 else 0,
   5, true, fun _ => 0, true, true, some 3, true⟩

lemma sobAux_false_iff (mem : Nat → Nat) (page fuel : Nat) :
    ∀ ofs, (sobAux mem page ofs fuel).1 = false ↔
      ∃ k, k < fuel ∧ mem (page + ofs + k) = 0 := by
  induction fuel with
  | zero =>
    intro ofs
    simp [sobAux]
  | succ n ih =>
    intro ofs
    by_cases h : mem (page + ofs) = 0
    · simp only [sobAux, if_pos h]
      constructor
      · intro _
        exact ⟨0, Nat.succ_pos n, by simpa using h⟩
      · intro _
        trivial
    · have ih' := ih (ofs + 1)
      simp only [sobAux, if_neg h]
      rw [ih']
      constructor
      · rintro ⟨k, hk, hz⟩
        refine ⟨k + 1, by omega, ?_⟩
        have he : page + ofs + (k + 1) = page + (ofs + 1) + k := by omega
        rw [he]
        exact hz
      · rintro ⟨k, hk, hz⟩
        match k with
        | 0 => exact absurd (by simpa using hz) h
        | k' + 1 =>
          refine ⟨k', by omega, ?_⟩
          have he : page + (ofs + 1) + k' = page + ofs + (k' + 1) := by omega
          rw [he]
          exact hz

lemma sobAux_reads (mem : Nat → Nat) (page fuel : Nat) :
    ∀ ofs a, a ∈ (sobAux mem page ofs fuel).2 →
      page + ofs ≤ a ∧ a < page + ofs + fuel := by
  induction fuel with
  | zero =>
    intro ofs a ha
    simp [sobAux] at ha
  | succ n ih =>
    intro ofs a ha
    by_cases h : mem (page + ofs) = 0
    · simp only [sobAux, if_pos h, List.mem_singleton] at ha
      omega
    · simp only [sobAux, if_neg h, List.mem_cons] at ha
      rcases ha with rfl | ha
      · omega
      · have := ih (ofs + 1) a ha
        omega

lemma sobAux_head (mem : Nat → Nat) (page ofs fuel : Nat) (h : 0 < fuel) :
    page + ofs ∈ (sobAux mem page ofs fuel).2 := by
  match fuel, h with
  | n + 1, _ =>
    by_cases hz : mem (page + ofs) = 0
    · simp [sobAux, hz]
    · simp [sobAux, hz]

lemma sob_false_iff (mem : Nat → Nat) (pgsz s : Nat) :
    (str_over_boundary mem pgsz s).1 = false ↔
      ∃ k, k < pgsz - s % pgsz ∧ mem (s + k) = 0 := by
  unfold str_over_boundary
  rw [sobAux_false_iff]
  have h : pgsz * (s / pgsz) + s % pgsz = s := Nat.div_add_mod s pgsz
  rw [h]

lemma sob_reads (mem : Nat → Nat) (pgsz s : Nat) (hpg : 0 < pgsz) :
    ∀ a ∈ (str_over_boundary mem pgsz s).2,
      s ≤ a ∧ a < pgsz * (s / pgsz) + pgsz := by
  intro a ha
  unfold str_over_boundary at ha
  have h := sobAux_reads mem (pgsz * (s / pgsz)) (pgsz - s % pgsz) (s % pgsz) a ha
  have h2 : pgsz * (s / pgsz) + s % pgsz = s := Nat.div_add_mod s pgsz
  have h3 : s % pgsz < pgsz := Nat.mod_lt s hpg
  omega

lemma sob_head (mem : Nat → Nat) (pgsz s : Nat) (h : s % pgsz < pgsz) :
    s ∈ (str_over_boundary mem pgsz s).2 := by
  unfold str_over_boundary
  have h2 : pgsz * (s / pgsz) + s % pgsz = s := Nat.div_add_mod s pgsz
  have := sobAux_head mem (pgsz * (s / pgsz)) (s % pgsz) (pgsz - s % pgsz) (by omega)
  rw [h2] at this
  exact this

lemma strlenB_eq (mem : Nat → Nat) :
    ∀ fuel s d, mem (s + d) = 0 → (∀ j, j < d → mem (s + j) ≠ 0) → d < fuel →
      strlenB mem s fuel = some d := by
  intro fuel
  induction fuel with
  | zero =>
    intro s d _ _ h
    omega
  | succ n ih =>
    intro s d h0 hpre hd
    by_cases hz : mem s = 0
    · have hd0 : d = 0 := by
        by_contra hne
        exact hpre 0 (by omega) (by simpa using hz)
      subst hd0
      simp [strlenB, hz]
    · have hdpos : d ≠ 0 := by
        intro hc
        subst hc
        exact hz (by simpa using h0)
      obtain ⟨d', rfl⟩ : ∃ d', d = d' + 1 := ⟨d - 1, by omega⟩
      have h0' : mem (s + 1 + d') = 0 := by
        have he : s + 1 + d' = s + (d' + 1) := by omega
        rw [he]
        exact h0
      have hpre' : ∀ j, j < d' → mem (s + 1 + j) ≠ 0 := by
        intro j hj
        have he : s + 1 + j = s + (j + 1) := by omega
        rw [he]
        exact hpre (j + 1) (by omega)
      simp [strlenB, hz, ih (s + 1) d' h0' hpre' (by omega)]

/-! ## Claim C9 -/

/-- C9: for every input address, `str_over_boundary` reads only bytes from
the address's own in-page offset up to the last byte of that same page —
never a byte of the following page — and returns `false` exactly when a NUL
byte occurs in that scanned range. -/
theorem str_over_boundary_safe (mem : Nat → Nat) (pgsz s : Nat) (hpg : 0 < pgsz) :
    (∀ a ∈ (str_over_boundary mem pgsz s).2,
        s ≤ a ∧ a < pgsz * (s / pgsz) + pgsz) ∧
    ((str_over_boundary mem pgsz s).1 = false ↔
      ∃ off, s % pgsz ≤ off ∧ off < pgsz ∧ mem (pgsz * (s / pgsz) + off) = 0) := by
  refine ⟨sob_reads mem pgsz s hpg, ?_⟩
  rw [sob_false_iff]
  have h2 : pgsz * (s / pgsz) + s % pgsz = s := Nat.div_add_mod s pgsz
  constructor
  · rintro ⟨k, hk, hz⟩
    refine ⟨s % pgsz + k, by omega, by omega, ?_⟩
    have he : pgsz * (s / pgsz) + (s % pgsz + k) = s + k := by omega
    rw [he]
    exact hz
  · rintro ⟨off, hlo, hhi, hz⟩
    refine ⟨off - s % pgsz, by omega, ?_⟩
    have he : s + (off - s % pgsz) = pgsz * (s / pgsz) + off := by omega
    rw [he]
    exact hz

/-- Witness for C9 at a concrete machine: page size 4, scan start 5, the only
NUL byte at address 6. -/
theorem str_over_boundary_safe_witness :
    0 < 4 ∧
    ((∀ a ∈ (str_over_boundary (fun a => if a = 6 then 0 else 1) 4 5).2,
        5 ≤ a ∧ a < 4 * (5 / 4) + 4) ∧
     ((str_over_boundary (fun a => if a = 6 then 0 else 1) 4 5).1 = false ↔
       ∃ off, 5 % 4 ≤ off ∧ off < 4 ∧
         (if (4 * (5 / 4) + off) = 6 then 0 else 1) = 0)) :=
  ⟨by decide, str_over_boundary_safe (fun a => if a = 6 then 0 else 1) 4 5 (by decide)⟩

lemma sb_cont_eval (mem : Nat → Nat) (pg : Nat) (dbuf : Nat → Nat)
    (doff s size' d : Nat)
    (hd0 : mem (s + d) = 0)
    (hpre : ∀ j, j < d → mem (s + j) ≠ 0)
    (hin : s % pg + d < pg)
    (hsz : 0 < size') :
    sb_cont mem pg dbuf doff s size' =
      some (upd (memcpyK dbuf doff mem s (min d (size' - 1))) (doff + min d (size' - 1)) 0,
            (str_over_boundary mem pg s).2 ++
              ((List.range (d + 1)).map (s + ·) ++ cpyReads s (min d (size' - 1))),
            cpyWrites mem s doff (min d (size' - 1)) ++ [(doff + min d (size' - 1), 0)]) := by
  have hb : (str_over_boundary mem pg s).1 = false := by
    rw [sob_false_iff]
    exact ⟨d, by omega, hd0⟩
  have hlen : strlenB mem s (pg - s % pg) = some d :=
    strlenB_eq mem (pg - s % pg) s d hd0 hpre (by omega)
  simp only [sb_cont, strlcpyK, hb, hlen, Bool.false_eq_true, if_false, hsz, if_pos]

lemma user_vtop_ofs (M : UMach) (a t : Nat) (hpg : 0 < M.pgsz)
    (h : user_vtop M a = some t) : t % M.pgsz = a % M.pgsz := by
  unfold user_vtop at h
  split at h
  · cases h
    rw [Nat.mul_comm, Nat.mul_add_mod]
    exact Nat.mod_mod_of_dvd _ dvd_rfl
  · cases h

lemma strlbond_cross (M : UMach) (dst0 : Nat → Nat) (src size s d2 n s2 dl2 : Nat)
    (hpg : 0 < M.pgsz)
    (hvt : user_vtop M src = some s)
    (hb1 : ∀ k, k < M.pgsz - s % M.pgsz → M.mem (s + k) ≠ 0)
    (hsz : 0 < size)
    (hn : n = min (M.pgsz - src % M.pgsz) (size - 1))
    (hs2 : s2 = M.pgsz * ((src + M.pgsz) / M.pgsz))
    (hdl2 : dl2 = min d2 (size - n - 1))
    (hd0 : M.mem (s2 + d2) = 0)
    (hpre : ∀ j, j < d2 → M.mem (s2 + j) ≠ 0)
    (hd2 : d2 < M.pgsz)
    (hnlt : n < size) :
    strlbond M dst0 src size =
      some ⟨upd (memcpyK (upd (memcpyK dst0 0 M.mem s n) n 0) n M.mem s2 dl2)
              (n + dl2) 0,
            [src],
            (str_over_boundary M.mem M.pgsz s).2 ++ cpyReads s n ++
              ((str_over_boundary M.mem M.pgsz s2).2 ++
                ((List.range (d2 + 1)).map (s2 + ·) ++ cpyReads s2 dl2)),
            cpyWrites M.mem s 0 n ++ [(n, 0)] ++
              (cpyWrites M.mem s2 n dl2 ++ [(n + dl2, 0)])⟩ := by
  have hb : (str_over_boundary M.mem M.pgsz s).1 = true := by
    rcases hbf : (str_over_boundary M.mem M.pgsz s).1 with _ | _
    · rw [sob_false_iff] at hbf
      rcases hbf with ⟨k, hk, hz⟩
      exact absurd hz (hb1 k hk)
    · rfl
  have hs2m : s2 % M.pgsz = 0 := by
    rw [hs2]
    exact Nat.mul_mod_right _ _
  have hcont := sb_cont_eval M.mem M.pgsz
    (upd (memcpyK dst0 0 M.mem s n) n 0) n s2 (size - n) d2 hd0 hpre
    (by omega) (by omega)
  rw [show size - n - 1 = size - n - 1 from rfl] at hcont
  simp only [strlbond, hvt, Option.getD_some, hb, if_true, ← hn, ← hs2, hcont,
    ← hdl2]

/-! ## Claim C7 -/

/-- C2 (amended): in the page-crossing case the copier copies the in-page
bytes bounded by both the remaining page bytes and `size - 1`, writes a
forced terminator at that index, and then continues the copy from the next
user page — but from its RAW user virtual address, without re-translating
it: the translator is called on `src` only, and the second user page is
dereferenced unvalidated. -/
theorem strlbond_crossing_behavior (M : UMach) (dst0 : Nat → Nat)
    (src size s d2 n s2 : Nat)
    (hpg : 0 < M.pgsz)
    (hvt : user_vtop M src = some s)
    (hb1 : ∀ k, k < M.pgsz - s % M.pgsz → M.mem (s + k) ≠ 0)
    (hsz : 0 < size)
    (hn : n = min (M.pgsz - src % M.pgsz) (size - 1))
    (hs2 : s2 = M.pgsz * ((src + M.pgsz) / M.pgsz))
    (hd0 : M.mem (s2 + d2) = 0)
    (hpre : ∀ j, j < d2 → M.mem (s2 + j) ≠ 0)
    (hd2 : d2 < M.pgsz) :
    sbOk (strlbond M dst0 src size) = true ∧
    (∀ i, i < n → sbDst (strlbond M dst0 src size) i = M.mem (s + i)) ∧
    (n, 0) ∈ sbWrites (strlbond M dst0 src size) ∧
    sbVtops (strlbond M dst0 src size) = [src] ∧
    s2 ∈ sbReads (strlbond M dst0 src size) ∧
    (∀ a ∈ sbVtops (strlbond M dst0 src size), M.pgsz * (a / M.pgsz) ≠ s2) := by
  have hnlt : n < size := by
    have : n ≤ size - 1 := by rw [hn]; exact Nat.min_le_right _ _
    omega
  have hrun := strlbond_cross M dst0 src size s d2 n s2 (min d2 (size - n - 1))
    hpg hvt hb1 hsz hn hs2 rfl hd0 hpre hd2 hnlt
  refine ⟨by simp [sbOk, hrun], ?_, ?_, ?_, ?_, ?_⟩
  · intro i hi
    simp only [sbDst, hrun, Option.elim_some, upd, memcpyK]
    have h1 : ¬ (i = n + min d2 (size - n - 1)) := by omega
    have h2 : ¬ (n ≤ i ∧ i < n + min d2 (size - n - 1)) := by omega
    have h3 : ¬ (i = n) := by omega
    rw [if_neg h1, if_neg h2, if_neg h3, if_pos (by omega)]
    simp
  · simp only [sbWrites, hrun, Option.elim_some]
    refine List.mem_append.mpr (Or.inl (List.mem_append.mpr (Or.inr ?_)))
    simp
  · simp [sbVtops, hrun]
  · simp only [sbReads, hrun, Option.elim_some]
    refine List.mem_append.mpr (Or.inr (List.mem_append.mpr (Or.inr
      (List.mem_append.mpr (Or.inl ?_)))))
    exact List.mem_map.mpr ⟨0, List.mem_range.mpr (by omega), by simp⟩
  · simp only [sbVtops, hrun, Option.elim_some, List.mem_singleton]
    rintro a rfl
    rw [hs2, Nat.add_div_right _ hpg, Nat.mul_succ]
    have : 0 < M.pgsz := hpg
    omega

/-- Counterexample to C2 as stated: in this crossing run the translator is
invoked on `src = 2` only — no call covers the next user page (page base 4) —
yet address 4 of that page is dereferenced. -/
theorem strlbond_no_revalidation_cex :
    sbVtops (strlbond M2c (fun _ => 0) 2 3) = [2] ∧
    4 ∈ sbReads (strlbond M2c (fun _ => 0) 2 3) ∧
    4 * (2 / 4) ≠ 4 := by
  decide

/-- Witness for the amended C2 at the concrete crossing machine `M2c`
(`src = 2`, `size = 3`, so `n = 2`, next page base `s2 = 4`). -/
theorem strlbond_crossing_behavior_witness :
    sbOk (strlbond M2c (fun _ => 0) 2 3) = true ∧
    (∀ i, i < 2 → sbDst (strlbond M2c (fun _ => 0) 2 3) i = M2c.mem (2 + i)) ∧
    (2, 0) ∈ sbWrites (strlbond M2c (fun _ => 0) 2 3) ∧
    sbVtops (strlbond M2c (fun _ => 0) 2 3) = [2] ∧
    4 ∈ sbReads (strlbond M2c (fun _ => 0) 2 3) ∧
    (∀ a ∈ sbVtops (strlbond M2c (fun _ => 0) 2 3), M2c.pgsz * (a / M2c.pgsz) ≠ 4) :=
  strlbond_crossing_behavior M2c (fun _ => 0) 2 3 2 0 2 4 (by decide) (by decide)
    (by intro k hk
        have h4 : M2c.pgsz = 4 := rfl
        rw [h4] at hk
        have hlt : k < 2 := by omega
        interval_cases k <;> decide)
    (by decide) (by decide) (by decide) (by decide)
    (by intro j hj; omega) (by decide)

/-! ## Claims C3, C5, C8 — frame table -/

lemma removeFirstRef_own (cur vaddr : Nat) :
    removeFirstRef cur [⟨cur, vaddr⟩] = [] := by
  simp [removeFirstRef]

lemma ffAux_append_fresh (cur vaddr fr : Nat) :
    ∀ l : List FTE, (∀ p ∈ l, p.paddr ≠ fr) →
      ffAux cur fr (l ++ [⟨fr, 1, [⟨cur, vaddr⟩]⟩]) = (l, true) := by
  intro l
  induction l with
  | nil =>
    intro _
    simp [ffAux, removeFirstRef_own]
  | cons p ps ih =>
    intro h
    have hp : p.paddr ≠ fr := h p (by simp)
    have hr := ih (fun q hq => h q (by simp [hq]))
    simp [ffAux, hp, hr]

/-- C8: allocating a page for a fresh (process, virtual address) pair and
immediately releasing the returned physical address restores the frame table
to its exact pre-allocate state: the pool regains the page, the new FTE is
gone, and no reference for the pair remains anywhere. -/
theorem frame_alloc_free_roundtrip (cur vaddr fr : Nat) (rest : List Nat)
    (ft0 : List FTE)
    (hfresh : ∀ p ∈ ft0, p.paddr ≠ fr) :
    frame_alloc true true cur vaddr ⟨fr :: rest, ft0⟩ =
      .ok fr ⟨rest, ft0 ++ [⟨fr, 1, [⟨cur, vaddr⟩]⟩]⟩ ∧
    frame_free cur fr ⟨rest, ft0 ++ [⟨fr, 1, [⟨cur, vaddr⟩]⟩]⟩ = ⟨fr :: rest, ft0⟩ ∧
    ((frame_free cur fr ⟨rest, ft0 ++ [⟨fr, 1, [⟨cur, vaddr⟩]⟩]⟩).ft.length
      = ft0.length) := by
  have hscan := ffAux_append_fresh cur vaddr fr ft0 hfresh
  refine ⟨rfl, ?_, ?_⟩
  · simp [frame_free, hscan]
  · simp [frame_free, hscan]

/-- Witness for C8: one free page 7, a pre-existing FTE for page 3, process 1
mapping virtual address 40. -/
theorem frame_alloc_free_roundtrip_witness :
    frame_alloc true true 1 40 ⟨[7], [⟨3, 1, [⟨2, 8⟩]⟩]⟩ =
      .ok 7 ⟨[], [⟨3, 1, [⟨2, 8⟩]⟩] ++ [⟨7, 1, [⟨1, 40⟩]⟩]⟩ ∧
    frame_free 1 7 ⟨[], [⟨3, 1, [⟨2, 8⟩]⟩] ++ [⟨7, 1, [⟨1, 40⟩]⟩]⟩ =
      ⟨[7], [⟨3, 1, [⟨2, 8⟩]⟩]⟩ ∧
    ((frame_free 1 7 ⟨[], [⟨3, 1, [⟨2, 8⟩]⟩] ++ [⟨7, 1, [⟨1, 40⟩]⟩]⟩).ft.length
      = [FTE.mk 3 1 [⟨2, 8⟩]].length) :=
  frame_alloc_free_roundtrip 1 40 7 [] [⟨3, 1, [⟨2, 8⟩]⟩] (by decide)

/-- C3 failing input: `frame_alloc` on an empty table with one free page,
where the FTE allocation succeeds and the reference allocation fails.  The
operation completes (returns failure) yet leaves an FTE with
`reference_count = 0` in the table, violating the spec §3 invariant; the
page itself was released, so the leftover FTE also points at a freed page. -/
theorem frame_table_inv_bug :
    frame_alloc true false 1 40 ⟨[7], []⟩ = .failed ⟨[7], [⟨7, 0, []⟩]⟩ ∧
    ¬ FTinv (FrameSt.mk [7] [⟨7, 0, []⟩]).ft := by
  constructor
  · rfl
  · intro h
    exact absurd ((h ⟨7, 0, []⟩ (by simp)).2) (by simp)

/-- C5 failing input: same run as `frame_table_inv_bug` — reference
allocation fails after the FTE was pushed.  `frame_alloc` does return
failure and does release the just-acquired page (the pool is restored), but
the circular sequence is NOT restored to its pre-call state: the partially
inserted FTE remains. -/
theorem frame_alloc_unwind_bug :
    frame_alloc true false 1 40 ⟨[7], []⟩ = .failed ⟨[7], [⟨7, 0, []⟩]⟩ ∧
    (FrameSt.mk [7] [⟨7, 0, []⟩]).pool = (FrameSt.mk [7] []).pool ∧
    (FrameSt.mk [7] [⟨7, 0, []⟩]).ft ≠ (FrameSt.mk [7] []).ft := by
  refine ⟨rfl, rfl, by decide⟩

/-! ## Claim C6 -/

/-- C10: each of `exec`, `create`, `remove`, `open` and `write` acquires
exactly one kernel scratch page per call past its pointer guard (the
acquisition counter rises by exactly one) and releases it on every return
path reached after the acquisition, so the pool count of a completed call is
unchanged; a call stopped by the pointer guard leaves the state untouched. -/
theorem syscall_scratch_page_balance :
    (∀ (M : KMach) (st : KSt) (cmd : Nat), st.pool ≠ 0 →
      (strlbond M.um (fun _ => 0) cmd M.um.pgsz).isSome = true →
      (exec M st cmd).2.pool = st.pool ∧
      (cmd < M.um.physBase → (exec M st cmd).2.acquires = st.acquires + 1) ∧
      (M.um.physBase ≤ cmd → (exec M st cmd).2 = st)) ∧
    (∀ (M : KMach) (st : KSt) (file : Nat), st.pool ≠ 0 →
      (strlbond M.um (fun _ => 0) file M.um.pgsz).isSome = true →
      (create M st file).2.pool = st.pool ∧
      (file < M.um.physBase → (create M st file).2.acquires = st.acquires + 1) ∧
      (M.um.physBase ≤ file → (create M st file).2 = st)) ∧
    (∀ (M : KMach) (st : KSt) (file : Nat), st.pool ≠ 0 →
      (strlbond M.um (fun _ => 0) file M.um.pgsz).isSome = true →
      (remove M st file).2.pool = st.pool ∧
      (file < M.um.physBase → (remove M st file).2.acquires = st.acquires + 1) ∧
      (M.um.physBase ≤ file → (remove M st file).2 = st)) ∧
    (∀ (M : KMach) (st : KSt) (file : Nat), st.pool ≠ 0 →
      (strlbond M.um (fun _ => 0) file M.um.pgsz).isSome = true →
      (openF M st file).2.pool = st.pool ∧
      (file < M.um.physBase → (openF M st file).2.acquires = st.acquires + 1) ∧
      (M.um.physBase ≤ file → (openF M st file).2 = st)) ∧
    (∀ (M : KMach) (st : KSt) (buffer size : Nat), st.pool ≠ 0 →
      (writeLoop M buffer size).isSome = true →
      (write M st buffer size).2.pool = st.pool ∧
      (buffer < M.um.physBase → (write M st buffer size).2.acquires = st.acquires + 1) ∧
      (M.um.physBase ≤ buffer → (write M st buffer size).2 = st)) := by
  refine ⟨?_, ?_, ?_, ?_, ?_⟩
  · intro M st cmd hpool hsb
    obtain ⟨r, hr⟩ := Option.isSome_iff_exists.mp hsb
    have hpal : pallocK st =
        some { st with pool := st.pool - 1, acquires := st.acquires + 1 } := by
      unfold pallocK
      rw [if_neg hpool]
    by_cases hg : M.um.physBase ≤ cmd
    · exact ⟨by simp [exec, hg], fun hc => absurd hg (by omega),
        fun _ => by simp [exec, hg]⟩
    · have hQ : (exec M st cmd).2.pool = st.pool - 1 + 1 ∧
          (exec M st cmd).2.acquires = st.acquires + 1 := by
        unfold exec
        rw [if_neg hg]
        simp only [hpal, hr]
        by_cases hc : M.childExists <;> simp [hc]
      exact ⟨by rw [hQ.1]; omega, fun _ => hQ.2, fun hc => absurd hc hg⟩
  · intro M st file hpool hsb
    obtain ⟨r, hr⟩ := Option.isSome_iff_exists.mp hsb
    have hpal : pallocK st =
        some { st with pool := st.pool - 1, acquires := st.acquires + 1 } := by
      unfold pallocK
      rw [if_neg hpool]
    by_cases hg : M.um.physBase ≤ file
    · exact ⟨by simp [create, hg], fun hc => absurd hg (by omega),
        fun _ => by simp [create, hg]⟩
    · have hQ : (create M st file).2.pool = st.pool - 1 + 1 ∧
          (create M st file).2.acquires = st.acquires + 1 := by
        unfold create
        rw [if_neg hg]
        simp only [hpal, hr]
        simp
      exact ⟨by rw [hQ.1]; omega, fun _ => hQ.2, fun hc => absurd hc hg⟩
  · intro M st file hpool hsb
    obtain ⟨r, hr⟩ := Option.isSome_iff_exists.mp hsb
    have hpal : pallocK st =
        some { st with pool := st.pool - 1, acquires := st.acquires + 1 } := by
      unfold pallocK
      rw [if_neg hpool]
    by_cases hg : M.um.physBase ≤ file
    · exact ⟨by simp [remove, hg], fun hc => absurd hg (by omega),
        fun _ => by simp [remove, hg]⟩
    · have hQ : (remove M st file).2.pool = st.pool - 1 + 1 ∧
          (remove M st file).2.acquires = st.acquires + 1 := by
        unfold remove
        rw [if_neg hg]
        simp only [hpal, hr]
        simp
      exact ⟨by rw [hQ.1]; omega, fun _ => hQ.2, fun hc => absurd hc hg⟩
  · intro M st file hpool hsb
    obtain ⟨r, hr⟩ := Option.isSome_iff_exists.mp hsb
    have hpal : pallocK st =
        some { st with pool := st.pool - 1, acquires := st.acquires + 1 } := by
      unfold pallocK
      rw [if_neg hpool]
    by_cases hg : M.um.physBase ≤ file
    · exact ⟨by simp [openF, hg], fun hc => absurd hg (by omega),
        fun _ => by simp [openF, hg]⟩
    · have hQ : (openF M st file).2.pool = st.pool - 1 + 1 ∧
          (openF M st file).2.acquires = st.acquires + 1 := by
        unfold openF
        rw [if_neg hg]
        simp only [hpal, hr]
        rcases hf : M.fsOpen with _ | hnd <;> by_cases hc : M.callocOk <;>
          simp [hf, hc]
      exact ⟨by rw [hQ.1]; omega, fun _ => hQ.2, fun hc => absurd hc hg⟩
  · intro M st buffer size hpool hwl
    obtain ⟨w, hw⟩ := Option.isSome_iff_exists.mp hwl
    have hpal : pallocK st =
        some { st with pool := st.pool - 1, acquires := st.acquires + 1 } := by
      unfold pallocK
      rw [if_neg hpool]
    by_cases hg : M.um.physBase ≤ buffer
    · exact ⟨by simp [write, hg], fun hc => absurd hg (by omega),
        fun _ => by simp [write, hg]⟩
    · have hQ : (write M st buffer size).2.pool = st.pool - 1 + 1 ∧
          (write M st buffer size).2.acquires = st.acquires + 1 := by
        unfold write
        rw [if_neg hg]
        simp only [hpal, hw]
        simp
      exact ⟨by rw [hQ.1]; omega, fun _ => hQ.2, fun hc => absurd hc hg⟩

/-- Witness for C10: the `write` part at the concrete machine `M4c` (pool 3,
buffer 16, length 2) and the `open` part at `M1c`-like data with a valid
filename pointer. -/
theorem syscall_scratch_page_balance_witness :
    ((write M4c ⟨3, 0, 0, []⟩ 16 2).2.pool = 3 ∧
     (16 < M4c.um.physBase → (write M4c ⟨3, 0, 0, []⟩ 16 2).2.acquires = 0 + 1) ∧
     (M4c.um.physBase ≤ 16 → (write M4c ⟨3, 0, 0, []⟩ 16 2).2 = ⟨3, 0, 0, []⟩)) ∧
    ((exec M4c ⟨3, 0, 0, []⟩ 16).2.pool = 3 ∧
     (16 < M4c.um.physBase → (exec M4c ⟨3, 0, 0, []⟩ 16).2.acquires = 0 + 1) ∧
     (M4c.um.physBase ≤ 16 → (exec M4c ⟨3, 0, 0, []⟩ 16).2 = ⟨3, 0, 0, []⟩)) :=
  ⟨syscall_scratch_page_balance.2.2.2.2 M4c ⟨3, 0, 0, []⟩ 16 2 (by decide) (by decide),
   syscall_scratch_page_balance.1 M4c ⟨3, 0, 0, []⟩ 16 (by decide) (by decide)⟩
